import Mathlib

/-!
Verification of the NBT-style tag-tree decoder in `src/bin/main.rs`.

The decoder reads a little-endian, length-prefixed binary format from a byte
stream.  We embed the byte stream as a `List Nat` (each element one byte) and
every parsing function as a pure function returning `Except ParseErr (result ×
remaining-stream)`, mirroring the Rust functions `TagType::parse`,
`Choice::parse`, `Tag::parse` and the decoding part of `LevelData::from_file`.
`f32` values are represented by the raw little-endian bit pattern of their four
bytes, since the program never computes with them.
-/

set_option maxHeartbeats 1000000

namespace Nbt

/-- A byte stream: the sequence of bytes still to be read, each in `[0,255]`. -/
abbrev ByteStream := List Nat

/-- The tag-type discriminants, mirroring Rust `enum TagType`. -/
inductive TagType where
  | End
  | Byte
  | Int32
  | Int64
  | Float
  | String
  | List
  | Compound
deriving DecidableEq, Repr

/-- Decode errors.  `eof` models `read_exact` failing with `UnexpectedEof`;
`invalidTagType b` models the `InvalidData` error "Invalid tag type: b" from
`TagType::parse`; `endValue` models the `InvalidData` error
"Cannot parse value of End tag" from `Choice::parse`. -/
inductive ParseErr where
  | eof
  | invalidTagType (b : Nat)
  | endValue
deriving DecidableEq, Repr

/-- Mirror of `TagType::parse`: read one byte and map it through the fixed
table; any unrecognized byte fails with the invalid-tag-type error. -/
def TagType.parse (s : ByteStream) : Except ParseErr (TagType × ByteStream) :=
  match s with
  | [] => .error .eof
  | b :: rest =>
    match b with
    | 0 => .ok (.End, rest)
    | 1 => .ok (.Byte, rest)
    | 3 => .ok (.Int32, rest)
    | 4 => .ok (.Int64, rest)
    | 5 => .ok (.Float, rest)
    | 8 => .ok (.String, rest)
    | 9 => .ok (.List, rest)
    | 10 => .ok (.Compound, rest)
    | b => .error (.invalidTagType b)

/-- Mirror of `reader.read_exact(&mut buf)` for a buffer of `n` bytes: succeed
with the first `n` bytes and the remaining stream, or fail with `eof` when the
stream is shorter than `n`. -/
def readExact (n : Nat) (s : List Nat) : Except ParseErr (List Nat × List Nat) :=
  if n ≤ s.length then .ok (s.take n, s.drop n) else .error .eof

/-- Little-endian value of a byte list (first byte least significant),
as in `uN::from_le_bytes`. -/
def leNat (bs : List Nat) : Nat :=
  bs.foldr (fun b acc => b + 256 * acc) 0

/-- Two's-complement reinterpretation at width `w`, as in `iN::from_le_bytes`. -/
def toSigned (w : Nat) (v : Nat) : Int :=
  if v < 2 ^ (w - 1) then (v : Int) else (v : Int) - 2 ^ w

/-- Read `n` bytes and interpret them as a little-endian unsigned integer. -/
def readLE (n : Nat) (s : List Nat) : Except ParseErr (Nat × List Nat) :=
  match readExact n s with
  | .error e => .error e
  | .ok (bs, s') => .ok (leNat bs, s')

/-- The Unicode replacement character U+FFFD. -/
def replacementChar : Char := Char.ofNat 0xFFFD

/-- Is `b` a UTF-8 continuation byte (`0x80..=0xBF`)? -/
def isCont (b : Nat) : Bool := 0x80 ≤ b && b ≤ 0xBF

/-- Valid first continuation byte of a three-byte sequence led by `b0`
(`E0` excludes overlong encodings, `ED` excludes surrogates). -/
def valid3First (b0 b1 : Nat) : Bool :=
  if b0 = 0xE0 then 0xA0 ≤ b1 && b1 ≤ 0xBF
  else if b0 = 0xED then 0x80 ≤ b1 && b1 ≤ 0x9F
  else isCont b1

/-- Valid first continuation byte of a four-byte sequence led by `b0`
(`F0` excludes overlong encodings, `F4` caps at U+10FFFF). -/
def valid4First (b0 b1 : Nat) : Bool :=
  if b0 = 0xF0 then 0x90 ≤ b1 && b1 ≤ 0xBF
  else if b0 = 0xF4 then 0x80 ≤ b1 && b1 ≤ 0x8F
  else isCont b1

/-- Mirror of `String::from_utf8_lossy` at the character level: decode UTF-8,
replacing each maximal invalid subpart by one U+FFFD (Unicode "substitution of
maximal subparts", the policy of Rust's `Utf8Chunks`). -/
def utf8LossyChars (l : List Nat) : List Char :=
  match l with
  | [] => []
  | b0 :: rest =>
    if b0 < 0x80 then Char.ofNat b0 :: utf8LossyChars rest
    else if b0 < 0xC2 then replacementChar :: utf8LossyChars rest
    else if b0 ≤ 0xDF then
      match hr : rest with
      | [] => [replacementChar]
      | b1 :: rest1 =>
        if isCont b1 then
          Char.ofNat ((b0 - 0xC0) * 64 + (b1 - 0x80)) :: utf8LossyChars rest1
        else replacementChar :: utf8LossyChars rest
    else if b0 ≤ 0xEF then
      match hr : rest with
      | [] => [replacementChar]
      | b1 :: rest1 =>
        if valid3First b0 b1 then
          match hr2 : rest1 with
          | [] => [replacementChar]
          | b2 :: rest2 =>
            if isCont b2 then
              Char.ofNat (((b0 - 0xE0) * 64 + (b1 - 0x80)) * 64 + (b2 - 0x80)) ::
                utf8LossyChars rest2
            else replacementChar :: utf8LossyChars rest1
        else replacementChar :: utf8LossyChars rest
    else if b0 ≤ 0xF4 then
      match hr : rest with
      | [] => [replacementChar]
      | b1 :: rest1 =>
        if valid4First b0 b1 then
          match hr2 : rest1 with
          | [] => [replacementChar]
          | b2 :: rest2 =>
            if isCont b2 then
              match hr3 : rest2 with
              | [] => [replacementChar]
              | b3 :: rest3 =>
                if isCont b3 then
                  Char.ofNat ((((b0 - 0xF0) * 64 + (b1 - 0x80)) * 64 + (b2 - 0x80)) * 64
                      + (b3 - 0x80)) :: utf8LossyChars rest3
                else replacementChar :: utf8LossyChars rest2
            else replacementChar :: utf8LossyChars rest1
        else replacementChar :: utf8LossyChars rest
    else replacementChar :: utf8LossyChars rest
termination_by l.length
decreasing_by all_goals (subst_vars; simp; try omega)

/-- Mirror of `String::from_utf8_lossy(..).into_owned()`. -/
def utf8Lossy (bs : List Nat) : String := String.mk (utf8LossyChars bs)

theorem tagTypeParse_length {s s₁ : ByteStream} {tt : TagType}
    (h : TagType.parse s = .ok (tt, s₁)) : s₁.length + 1 = s.length := by
  unfold TagType.parse at h
  split at h
  · simp at h
  · split at h <;> simp_all

theorem readExact_ok {n : Nat} {s bs s' : List Nat} (h : readExact n s = .ok (bs, s')) :
    n ≤ s.length ∧ bs = s.take n ∧ s' = s.drop n := by
  unfold readExact at h
  split at h <;> simp_all

theorem readExact_ok_length {n : Nat} {s bs s' : List Nat}
    (h : readExact n s = .ok (bs, s')) : s'.length + n = s.length := by
  obtain ⟨h1, -, h3⟩ := readExact_ok h
  subst h3
  simp
  omega

theorem readLE_ok {n : Nat} {s : List Nat} {v : Nat} {s' : List Nat}
    (h : readLE n s = .ok (v, s')) :
    n ≤ s.length ∧ v = leNat (s.take n) ∧ s' = s.drop n := by
  unfold readLE at h
  split at h
  · simp at h
  next bs t heq =>
    obtain ⟨h1, h2, h3⟩ := readExact_ok heq
    simp_all

theorem readLE_ok_length {n : Nat} {s : List Nat} {v : Nat} {s' : List Nat}
    (h : readLE n s = .ok (v, s')) : s'.length + n = s.length := by
  obtain ⟨h1, -, h3⟩ := readLE_ok h
  subst h3
  simp
  omega

mutual
/-- Mirror of Rust `enum Choice`: the typed payload of a tag.  `float32 bits`
holds the raw little-endian bit pattern of the four `f32` bytes. -/
inductive Choice where
  | byte (v : Nat)
  | int32 (v : Int)
  | int64 (v : Int)
  | float32 (bits : Nat)
  | string (s : String)
  | list (elemType : TagType) (items : List Choice)
  | vec (tags : List Tag)

/-- Mirror of Rust `struct Tag { tag_type, key, choice_value }`. -/
inductive Tag where
  | mk (tag_type : TagType) (key : String) (choice_value : Option Choice)
end

/-- Field accessor for `Tag.tag_type`. -/
def Tag.tag_type : Tag → TagType
  | .mk t _ _ => t

/-- Field accessor for `Tag.key`. -/
def Tag.key : Tag → String
  | .mk _ k _ => k

/-- Field accessor for `Tag.choice_value`. -/
def Tag.choice_value : Tag → Option Choice
  | .mk _ _ v => v

@[simp] theorem Tag.tag_type_mk (t : TagType) (k : String) (v : Option Choice) :
    Tag.tag_type (.mk t k v) = t := rfl

@[simp] theorem Tag.key_mk (t : TagType) (k : String) (v : Option Choice) :
    Tag.key (.mk t k v) = k := rfl

@[simp] theorem Tag.choice_value_mk (t : TagType) (k : String) (v : Option Choice) :
    Tag.choice_value (.mk t k v) = v := rfl

mutual

/-- Mirror of `Tag::parse`, strengthened in the type with the fact that a
successful parse consumes at least one byte (needed for termination of the
surrounding loops).  Reads a type code; for `End` returns the keyless,
valueless terminator tag; otherwise reads a 2-byte key length, the key bytes
(lossily UTF-8 decoded), and the value via `Choice::parse`. -/
def tagParseS (s : ByteStream) :
    Except ParseErr (Tag × {t : ByteStream // t.length < s.length}) :=
  match h1 : TagType.parse s with
  | .error e => .error e
  | .ok (tt, s₁) =>
    if tt = TagType.End then
      .ok (.mk TagType.End "" none, ⟨s₁, by have := tagTypeParse_length h1; omega⟩)
    else
      match h2 : readExact 2 s₁ with
      | .error e => .error e
      | .ok (key_length_buf, s₂) =>
        match h3 : readExact (leNat key_length_buf) s₂ with
        | .error e => .error e
        | .ok (key_buf, s₃) =>
          match choiceParseS tt s₃ with
          | .error e => .error e
          | .ok (c, ⟨s₄, h4⟩) =>
            .ok (.mk tt (utf8Lossy key_buf) (some c),
              ⟨s₄, by
                have e1 := tagTypeParse_length h1
                have e2 := readExact_ok_length h2
                have e3 := readExact_ok_length h3
                omega⟩)
termination_by (s.length, 0)
decreasing_by
  have e1 := tagTypeParse_length h1
  have e2 := readExact_ok_length h2
  have e3 := readExact_ok_length h3
  exact Prod.Lex.left _ _ (by omega)

/-- Mirror of `Choice::parse`, strengthened like `tagParseS`: every successful
value parse consumes at least one byte (2 for the shortest, an empty string's
length prefix... in fact at least 1 in every branch). -/
def choiceParseS (tag_type : TagType) (s : ByteStream) :
    Except ParseErr (Choice × {t : ByteStream // t.length < s.length}) :=
  match tag_type with
  | .End => .error .endValue
  | .Byte =>
    match h : readExact 1 s with
    | .error e => .error e
    | .ok (bs, s') =>
      .ok (.byte (bs.headD 0), ⟨s', by have := readExact_ok_length h; omega⟩)
  | .Int32 =>
    match h : readLE 4 s with
    | .error e => .error e
    | .ok (v, s') =>
      .ok (.int32 (toSigned 32 v), ⟨s', by have := readLE_ok_length h; omega⟩)
  | .Int64 =>
    match h : readLE 8 s with
    | .error e => .error e
    | .ok (v, s') =>
      .ok (.int64 (toSigned 64 v), ⟨s', by have := readLE_ok_length h; omega⟩)
  | .Float =>
    match h : readLE 4 s with
    | .error e => .error e
    | .ok (v, s') =>
      .ok (.float32 v, ⟨s', by have := readLE_ok_length h; omega⟩)
  | .String =>
    match h1 : readLE 2 s with
    | .error e => .error e
    | .ok (length, s₁) =>
      match h2 : readExact length s₁ with
      | .error e => .error e
      | .ok (string_value_buf, s₂) =>
        .ok (.string (utf8Lossy string_value_buf),
          ⟨s₂, by
            have e1 := readLE_ok_length h1
            have e2 := readExact_ok_length h2
            omega⟩)
  | .List =>
    match h1 : TagType.parse s with
    | .error e => .error e
    | .ok (element_type, s₁) =>
      match h2 : readLE 4 s₁ with
      | .error e => .error e
      | .ok (length, s₂) =>
        match listLoopS element_type length s₂ with
        | .error e => .error e
        | .ok (values, ⟨s₃, h3⟩) =>
          .ok (.list element_type values,
            ⟨s₃, by
              have e1 := tagTypeParse_length h1
              have e2 := readLE_ok_length h2
              omega⟩)
  | .Compound =>
    match compoundLoopS s with
    | .error e => .error e
    | .ok (compound_tags, ⟨s', h⟩) => .ok (.vec compound_tags, ⟨s', h⟩)
termination_by (s.length, 2)
decreasing_by
  · have e1 := tagTypeParse_length h1
    have e2 := readLE_ok_length h2
    exact Prod.Lex.left _ _ (by omega)
  · exact Prod.Lex.right _ (by omega)

/-- The `Compound` branch loop of `Choice::parse`: repeatedly parse child
tags until an `End` tag, which is consumed and discarded; a child error
propagates unchanged. -/
def compoundLoopS (s : ByteStream) :
    Except ParseErr (List Tag × {t : ByteStream // t.length < s.length}) :=
  match tagParseS s with
  | .error e => .error e
  | .ok (child_tag, ⟨s', h⟩) =>
    if child_tag.tag_type = TagType.End then .ok ([], ⟨s', h⟩)
    else
      match compoundLoopS s' with
      | .error e => .error e
      | .ok (ts, ⟨s'', h''⟩) => .ok (child_tag :: ts, ⟨s'', h''.trans h⟩)
termination_by (s.length, 1)
decreasing_by
  · exact Prod.Lex.right _ (by omega)
  · exact Prod.Lex.left _ _ h

/-- The `List` branch loop of `Choice::parse`: parse exactly `n` values of the
element type; an element error propagates unchanged. -/
def listLoopS (element_type : TagType) (n : Nat) (s : ByteStream) :
    Except ParseErr (List Choice × {t : ByteStream // t.length ≤ s.length}) :=
  match n with
  | 0 => .ok ([], ⟨s, le_refl _⟩)
  | n + 1 =>
    match choiceParseS element_type s with
    | .error e => .error e
    | .ok (c, ⟨s', h⟩) =>
      match listLoopS element_type n s' with
      | .error e => .error e
      | .ok (cs, ⟨s'', h''⟩) => .ok (c :: cs, ⟨s'', h''.trans h.le⟩)
termination_by (s.length, 3)
decreasing_by
  · exact Prod.Lex.right _ (by omega)
  · exact Prod.Lex.left _ _ h

end


/-- Mirror of `Tag::parse` at the Rust type: result and remaining stream. -/
def Tag.parse (s : ByteStream) : Except ParseErr (Tag × ByteStream) :=
  match tagParseS s with
  | .error e => .error e
  | .ok (t, u) => .ok (t, u.1)

/-- Mirror of `Choice::parse` at the Rust type: result and remaining stream. -/
def Choice.parse (tag_type : TagType) (s : ByteStream) :
    Except ParseErr (Choice × ByteStream) :=
  match choiceParseS tag_type s with
  | .error e => .error e
  | .ok (c, u) => .ok (c, u.1)

/-- The `Compound` loop of `Choice::parse` at the plain type. -/
def compoundParse (s : ByteStream) : Except ParseErr (List Tag × ByteStream) :=
  match compoundLoopS s with
  | .error e => .error e
  | .ok (ts, u) => .ok (ts, u.1)

/-- The `List` element loop of `Choice::parse` at the plain type. -/
def listElems (element_type : TagType) (n : Nat) (s : ByteStream) :
    Except ParseErr (List Choice × ByteStream) :=
  match listLoopS element_type n s with
  | .error e => .error e
  | .ok (cs, u) => .ok (cs, u.1)

/-- The top-level tag loop of `LevelData::from_file`:
`while let Ok(tag) = Tag::parse(..)`, breaking on an `End` tag and pushing
every other tag; a parse error terminates the loop normally and the tags
accumulated so far are kept. -/
def parseTags (s : ByteStream) : List Tag :=
  match tagParseS s with
  | .error _ => []
  | .ok (tag, ⟨s', hs⟩) =>
    if tag.tag_type = TagType.End then []
    else tag :: parseTags s'
termination_by s.length
decreasing_by exact hs

/-- Mirror of Rust `struct LevelData`. -/
structure LevelData where
  version : Int
  buffer_length : Int
  tags : List Tag

/-- The decoding part of `LevelData::from_file`: read a 4-byte little-endian
signed version and buffer length, then run the top-level tag loop.  Locating
and opening the file is I/O glue outside the byte-level model. -/
def LevelData.from_bytes (s : ByteStream) : Except ParseErr LevelData :=
  match readExact 4 s with
  | .error e => .error e
  | .ok (version_buffer, s₁) =>
    match readExact 4 s₁ with
    | .error e => .error e
    | .ok (buffer_length_buffer, s₂) =>
      .ok ⟨toSigned 32 (leNat version_buffer),
           toSigned 32 (leNat buffer_length_buffer), parseTags s₂⟩

/-! ### Unfolding lemmas relating the wrappers to the strengthened parsers -/

theorem tagParseS_of_parse_ok {s : ByteStream} {t : Tag} {s' : ByteStream}
    (h : Tag.parse s = .ok (t, s')) :
    ∃ hlt : s'.length < s.length, tagParseS s = .ok (t, ⟨s', hlt⟩) := by
  unfold Tag.parse at h
  split at h
  · simp at h
  next t₀ u heq =>
    obtain ⟨s'', hlt⟩ := u
    simp only [Except.ok.injEq, Prod.mk.injEq] at h
    obtain ⟨rfl, rfl⟩ := h
    exact ⟨hlt, heq⟩

theorem tagParse_error_iff {s : ByteStream} {e : ParseErr} :
    Tag.parse s = .error e ↔ tagParseS s = .error e := by
  unfold Tag.parse
  constructor
  · intro h
    split at h <;> simp_all
  · intro h
    rw [h]

theorem choiceParseS_of_parse_ok {tt : TagType} {s : ByteStream} {c : Choice}
    {s' : ByteStream} (h : Choice.parse tt s = .ok (c, s')) :
    ∃ hlt : s'.length < s.length, choiceParseS tt s = .ok (c, ⟨s', hlt⟩) := by
  unfold Choice.parse at h
  split at h
  · simp at h
  next c₀ u heq =>
    obtain ⟨s'', hlt⟩ := u
    simp only [Except.ok.injEq, Prod.mk.injEq] at h
    obtain ⟨rfl, rfl⟩ := h
    exact ⟨hlt, heq⟩

theorem choiceParse_error_iff {tt : TagType} {s : ByteStream} {e : ParseErr} :
    Choice.parse tt s = .error e ↔ choiceParseS tt s = .error e := by
  unfold Choice.parse
  constructor
  · intro h
    split at h <;> simp_all
  · intro h
    rw [h]

theorem tagParseS_end {s s₁ : ByteStream} (h : TagType.parse s = .ok (TagType.End, s₁)) :
    ∃ hlt : s₁.length < s.length,
      tagParseS s = .ok (.mk TagType.End "" none, ⟨s₁, hlt⟩) := by
  have hlt : s₁.length < s.length := by have := tagTypeParse_length h; omega
  refine ⟨hlt, ?_⟩
  unfold tagParseS
  split
  · simp_all
  next tt s₁' heq =>
    rw [heq] at h
    simp only [Except.ok.injEq, Prod.mk.injEq] at h
    obtain ⟨rfl, rfl⟩ := h
    simp

theorem Tag.parse_end {s s₁ : ByteStream} (h : TagType.parse s = .ok (TagType.End, s₁)) :
    Tag.parse s = .ok (.mk TagType.End "" none, s₁) := by
  obtain ⟨hlt, hS⟩ := tagParseS_end h
  unfold Tag.parse
  rw [hS]

theorem tagParseS_nonEnd_err {s : ByteStream} {tt : TagType}
    {s₁ kb s₂ key_buf s₃ : ByteStream} {e : ParseErr}
    (h1 : TagType.parse s = .ok (tt, s₁)) (hne : tt ≠ TagType.End)
    (h2 : readExact 2 s₁ = .ok (kb, s₂))
    (h3 : readExact (leNat kb) s₂ = .ok (key_buf, s₃))
    (hc : choiceParseS tt s₃ = .error e) :
    tagParseS s = .error e := by
  unfold tagParseS
  split
  · simp_all
  next tt' s₁' heq =>
    rw [heq] at h1
    simp only [Except.ok.injEq, Prod.mk.injEq] at h1
    obtain ⟨rfl, rfl⟩ := h1
    rw [if_neg hne]
    split
    · simp_all
    next kb' s₂' heq2 =>
      rw [heq2] at h2
      simp only [Except.ok.injEq, Prod.mk.injEq] at h2
      obtain ⟨rfl, rfl⟩ := h2
      split
      · simp_all
      next key_buf' s₃' heq3 =>
        rw [heq3] at h3
        simp only [Except.ok.injEq, Prod.mk.injEq] at h3
        obtain ⟨rfl, rfl⟩ := h3
        rw [hc]

theorem tagParseS_nonEnd_ok {s : ByteStream} {tt : TagType}
    {s₁ kb s₂ key_buf s₃ : ByteStream} {c : Choice}
    {u : {t : ByteStream // t.length < s₃.length}}
    (h1 : TagType.parse s = .ok (tt, s₁)) (hne : tt ≠ TagType.End)
    (h2 : readExact 2 s₁ = .ok (kb, s₂))
    (h3 : readExact (leNat kb) s₂ = .ok (key_buf, s₃))
    (hc : choiceParseS tt s₃ = .ok (c, u)) :
    ∃ hlt : u.1.length < s.length,
      tagParseS s = .ok (.mk tt (utf8Lossy key_buf) (some c), ⟨u.1, hlt⟩) := by
  have e1 := tagTypeParse_length h1
  have e2 := readExact_ok_length h2
  have e3 := readExact_ok_length h3
  have hlt : u.1.length < s.length := by have := u.2; omega
  refine ⟨hlt, ?_⟩
  unfold tagParseS
  split
  · simp_all
  next tt' s₁' heq =>
    rw [heq] at h1
    simp only [Except.ok.injEq, Prod.mk.injEq] at h1
    obtain ⟨rfl, rfl⟩ := h1
    rw [if_neg hne]
    split
    · simp_all
    next kb' s₂' heq2 =>
      rw [heq2] at h2
      simp only [Except.ok.injEq, Prod.mk.injEq] at h2
      obtain ⟨rfl, rfl⟩ := h2
      split
      · simp_all
      next key_buf' s₃' heq3 =>
        rw [heq3] at h3
        simp only [Except.ok.injEq, Prod.mk.injEq] at h3
        obtain ⟨rfl, rfl⟩ := h3
        rw [hc]

theorem Tag.parse_nonEnd {s : ByteStream} {tt : TagType} {s₁ kb s₂ key_buf s₃ : ByteStream}
    (h1 : TagType.parse s = .ok (tt, s₁)) (hne : tt ≠ TagType.End)
    (h2 : readExact 2 s₁ = .ok (kb, s₂))
    (h3 : readExact (leNat kb) s₂ = .ok (key_buf, s₃)) :
    Tag.parse s = (Choice.parse tt s₃).map
      (fun p => (Tag.mk tt (utf8Lossy key_buf) (some p.1), p.2)) := by
  cases hc : choiceParseS tt s₃ with
  | error e =>
    have hS := tagParseS_nonEnd_err h1 hne h2 h3 hc
    unfold Tag.parse Choice.parse
    rw [hS, hc]
    simp [Except.map]
  | ok p =>
    obtain ⟨c, u⟩ := p
    obtain ⟨hlt, hS⟩ := tagParseS_nonEnd_ok h1 hne h2 h3 hc
    unfold Tag.parse Choice.parse
    rw [hS, hc]
    simp [Except.map]

/-! ### The top-level loop -/

theorem parseTags_error {s : ByteStream} {e : ParseErr}
    (h : Tag.parse s = .error e) : parseTags s = [] := by
  rw [parseTags]
  rw [tagParse_error_iff.mp h]

theorem parseTags_end {s : ByteStream} {t : Tag} {s' : ByteStream}
    (h : Tag.parse s = .ok (t, s')) (ht : t.tag_type = TagType.End) :
    parseTags s = [] := by
  obtain ⟨hlt, hS⟩ := tagParseS_of_parse_ok h
  rw [parseTags, hS]
  simp [ht]

theorem parseTags_cons {s : ByteStream} {t : Tag} {s' : ByteStream}
    (h : Tag.parse s = .ok (t, s')) (hne : t.tag_type ≠ TagType.End) :
    parseTags s = t :: parseTags s' := by
  obtain ⟨hlt, hS⟩ := tagParseS_of_parse_ok h
  rw [parseTags, hS]
  simp [hne]

theorem from_bytes_ok {s : ByteStream} (h : 8 ≤ s.length) :
    LevelData.from_bytes s =
      .ok ⟨toSigned 32 (leNat (s.take 4)), toSigned 32 (leNat ((s.drop 4).take 4)),
           parseTags (s.drop 8)⟩ := by
  unfold LevelData.from_bytes
  have e1 : readExact 4 s = .ok (s.take 4, s.drop 4) := by
    unfold readExact; rw [if_pos (by omega)]
  have e2 : readExact 4 (s.drop 4) = .ok ((s.drop 4).take 4, (s.drop 4).drop 4) := by
    unfold readExact; rw [if_pos (by simp; omega)]
  simp [e1, e2, List.drop_drop]

/-! ### The `Compound` branch -/

theorem compoundParse_err {s : ByteStream} {e : ParseErr}
    (h : Tag.parse s = .error e) : compoundParse s = .error e := by
  unfold compoundParse
  rw [compoundLoopS, tagParse_error_iff.mp h]

theorem compoundParse_end {s : ByteStream} {t : Tag} {s' : ByteStream}
    (h : Tag.parse s = .ok (t, s')) (ht : t.tag_type = TagType.End) :
    compoundParse s = .ok ([], s') := by
  obtain ⟨hlt, hS⟩ := tagParseS_of_parse_ok h
  unfold compoundParse
  rw [compoundLoopS, hS]
  simp [ht]

theorem compoundParse_cons {s : ByteStream} {t : Tag} {s' : ByteStream}
    (h : Tag.parse s = .ok (t, s')) (hne : t.tag_type ≠ TagType.End) :
    compoundParse s = (compoundParse s').map (fun p => (t :: p.1, p.2)) := by
  obtain ⟨hlt, hS⟩ := tagParseS_of_parse_ok h
  unfold compoundParse
  rw [compoundLoopS, hS]
  cases hc : compoundLoopS s' with
  | error e => simp [hne, hc, Except.map]
  | ok p =>
    obtain ⟨ts, u⟩ := p
    obtain ⟨s'', h''⟩ := u
    simp [hne, hc, Except.map]

theorem Choice.parse_compound (s : ByteStream) :
    Choice.parse TagType.Compound s =
      (compoundParse s).map (fun p => (Choice.vec p.1, p.2)) := by
  unfold Choice.parse compoundParse
  rw [choiceParseS]
  cases hc : compoundLoopS s with
  | error e => simp [hc, Except.map]
  | ok p =>
    obtain ⟨ts, u⟩ := p
    obtain ⟨s'', h''⟩ := u
    simp [hc, Except.map]

theorem compoundLoopS_no_end :
    ∀ n (s : ByteStream) ts u, s.length ≤ n → compoundLoopS s = .ok (ts, u) →
      ∀ t ∈ ts, t.tag_type ≠ TagType.End := by
  intro n
  induction n with
  | zero =>
    intro s ts u hle h
    have hs : s = [] := List.length_eq_zero.mp (Nat.le_antisymm hle (Nat.zero_le _))
    subst hs
    rw [compoundLoopS] at h
    simp [tagParseS, TagType.parse] at h
  | succ n ih =>
    intro s ts u hle h
    rw [compoundLoopS] at h
    split at h
    · simp at h
    rename_i child_tag s' hlt heq
    split at h
    next hEnd =>
      simp only [Except.ok.injEq, Prod.mk.injEq] at h
      obtain ⟨h1, -⟩ := h
      subst h1
      simp
    next hEnd =>
      split at h
      · simp at h
      rename_i ts' s'' h'' heq2
      simp only [Except.ok.injEq, Prod.mk.injEq] at h
      obtain ⟨h1, -⟩ := h
      subst h1
      intro x hx
      rcases List.mem_cons.mp hx with rfl | hx'
      · exact hEnd
      · exact ih s' ts' ⟨s'', h''⟩ (by omega) heq2 x hx'

theorem compoundParse_no_end {s : ByteStream} {ts : List Tag} {s' : ByteStream}
    (h : compoundParse s = .ok (ts, s')) : ∀ t ∈ ts, t.tag_type ≠ TagType.End := by
  unfold compoundParse at h
  split at h
  · simp at h
  next ts₀ u heq =>
    simp only [Except.ok.injEq, Prod.mk.injEq] at h
    obtain ⟨rfl, -⟩ := h
    exact compoundLoopS_no_end s.length s ts₀ u le_rfl heq

/-! ### The `List` branch -/

theorem listElems_zero (et : TagType) (s : ByteStream) :
    listElems et 0 s = .ok ([], s) := by
  unfold listElems
  rw [listLoopS]

theorem listElems_succ_err {et : TagType} {n : Nat} {s : ByteStream} {e : ParseErr}
    (h : Choice.parse et s = .error e) : listElems et (n + 1) s = .error e := by
  unfold listElems
  rw [listLoopS, choiceParse_error_iff.mp h]

theorem listElems_succ_ok {et : TagType} {n : Nat} {s : ByteStream} {c : Choice}
    {s' : ByteStream} (h : Choice.parse et s = .ok (c, s')) :
    listElems et (n + 1) s = (listElems et n s').map (fun p => (c :: p.1, p.2)) := by
  obtain ⟨hlt, hS⟩ := choiceParseS_of_parse_ok h
  unfold listElems
  rw [listLoopS, hS]
  cases hc : listLoopS et n s' with
  | error e => simp [hc, Except.map]
  | ok p =>
    obtain ⟨cs, u⟩ := p
    obtain ⟨s'', h''⟩ := u
    simp [hc, Except.map]

theorem listLoopS_length {et : TagType} :
    ∀ {n : Nat} {s : ByteStream} {cs : List Choice} {u},
      listLoopS et n s = .ok (cs, u) → cs.length = n := by
  intro n
  induction n with
  | zero =>
    intro s cs u h
    rw [listLoopS] at h
    simp only [Except.ok.injEq, Prod.mk.injEq] at h
    obtain ⟨h1, -⟩ := h
    subst h1
    rfl
  | succ n ih =>
    intro s cs u h
    rw [listLoopS] at h
    split at h
    · simp at h
    rename_i c s' hlt heq
    split at h
    · simp at h
    rename_i cs' s'' h'' heq2
    simp only [Except.ok.injEq, Prod.mk.injEq] at h
    obtain ⟨h1, -⟩ := h
    subst h1
    simp [ih heq2]

theorem listElems_length {et : TagType} {n : Nat} {s : ByteStream} {cs : List Choice}
    {s' : ByteStream} (h : listElems et n s = .ok (cs, s')) : cs.length = n := by
  unfold listElems at h
  split at h
  · simp at h
  next cs₀ u heq =>
    simp only [Except.ok.injEq, Prod.mk.injEq] at h
    obtain ⟨rfl, -⟩ := h
    exact listLoopS_length heq

theorem choiceParseS_list_err {s : ByteStream} {et : TagType} {s₁ : ByteStream} {n : Nat}
    {s₂ : ByteStream} {e : ParseErr} (h1 : TagType.parse s = .ok (et, s₁))
    (h2 : readLE 4 s₁ = .ok (n, s₂)) (hc : listLoopS et n s₂ = .error e) :
    choiceParseS TagType.List s = .error e := by
  unfold choiceParseS
  split
  · simp_all
  next et' s₁' heq =>
    rw [heq] at h1
    simp only [Except.ok.injEq, Prod.mk.injEq] at h1
    obtain ⟨rfl, rfl⟩ := h1
    split
    · simp_all
    next n' s₂' heq2 =>
      rw [heq2] at h2
      simp only [Except.ok.injEq, Prod.mk.injEq] at h2
      obtain ⟨rfl, rfl⟩ := h2
      rw [hc]

theorem choiceParseS_list_ok {s : ByteStream} {et : TagType} {s₁ : ByteStream} {n : Nat}
    {s₂ : ByteStream} {cs : List Choice} {s₃ : ByteStream} {h3 : s₃.length ≤ s₂.length}
    (h1 : TagType.parse s = .ok (et, s₁)) (h2 : readLE 4 s₁ = .ok (n, s₂))
    (hc : listLoopS et n s₂ = .ok (cs, ⟨s₃, h3⟩)) :
    ∃ hlt : s₃.length < s.length,
      choiceParseS TagType.List s = .ok (.list et cs, ⟨s₃, hlt⟩) := by
  have e1 := tagTypeParse_length h1
  have e2 := readLE_ok_length h2
  have hlt : s₃.length < s.length := by omega
  refine ⟨hlt, ?_⟩
  unfold choiceParseS
  split
  · simp_all
  next et' s₁' heq =>
    rw [heq] at h1
    simp only [Except.ok.injEq, Prod.mk.injEq] at h1
    obtain ⟨rfl, rfl⟩ := h1
    split
    · simp_all
    next n' s₂' heq2 =>
      rw [heq2] at h2
      simp only [Except.ok.injEq, Prod.mk.injEq] at h2
      obtain ⟨rfl, rfl⟩ := h2
      rw [hc]

theorem Choice.parse_list {s : ByteStream} {et : TagType} {s₁ : ByteStream} {n : Nat}
    {s₂ : ByteStream} (h1 : TagType.parse s = .ok (et, s₁))
    (h2 : readLE 4 s₁ = .ok (n, s₂)) :
    Choice.parse TagType.List s =
      (listElems et n s₂).map (fun p => (Choice.list et p.1, p.2)) := by
  cases hc : listLoopS et n s₂ with
  | error e =>
    have hS := choiceParseS_list_err h1 h2 hc
    unfold Choice.parse listElems
    rw [hS, hc]
    simp [Except.map]
  | ok p =>
    obtain ⟨cs, u⟩ := p
    obtain ⟨s₃, h3⟩ := u
    obtain ⟨hlt, hS⟩ := choiceParseS_list_ok h1 h2 hc
    unfold Choice.parse listElems
    rw [hS, hc]
    simp [Except.map]

theorem choiceParseS_string_ok {s : ByteStream} {n : Nat} {s₁ bs s₂ : ByteStream}
    (h1 : readLE 2 s = .ok (n, s₁)) (h2 : readExact n s₁ = .ok (bs, s₂)) :
    ∃ hlt : s₂.length < s.length,
      choiceParseS TagType.String s = .ok (.string (utf8Lossy bs), ⟨s₂, hlt⟩) := by
  have e1 := readLE_ok_length h1
  have e2 := readExact_ok_length h2
  have hlt : s₂.length < s.length := by omega
  refine ⟨hlt, ?_⟩
  unfold choiceParseS
  split
  · simp_all
  next n' s₁' heq =>
    rw [heq] at h1
    simp only [Except.ok.injEq, Prod.mk.injEq] at h1
    obtain ⟨rfl, rfl⟩ := h1
    split
    · simp_all
    next bs' s₂' heq2 =>
      rw [heq2] at h2
      simp only [Except.ok.injEq, Prod.mk.injEq] at h2
      obtain ⟨rfl, rfl⟩ := h2
      simp

theorem Choice.parse_string_ok {s : ByteStream} {n : Nat} {s₁ bs s₂ : ByteStream}
    (h1 : readLE 2 s = .ok (n, s₁)) (h2 : readExact n s₁ = .ok (bs, s₂)) :
    Choice.parse TagType.String s = .ok (.string (utf8Lossy bs), s₂) := by
  obtain ⟨hlt, hS⟩ := choiceParseS_string_ok h1 h2
  unfold Choice.parse
  rw [hS]

/-! ### Shape of a successfully parsed tag -/

theorem tagParseS_shape {s : ByteStream} {t : Tag} {u : {t : ByteStream // t.length < s.length}}
    (h : tagParseS s = .ok (t, u)) :
    (t.tag_type = TagType.End ∧ t.choice_value = none) ∨
    (t.tag_type ≠ TagType.End ∧ ∃ c, t.choice_value = some c) := by
  unfold tagParseS at h
  split at h
  · simp at h
  next tt s₁ heq =>
  split at h
  next hEnd =>
    simp only [Except.ok.injEq, Prod.mk.injEq] at h
    obtain ⟨h1, -⟩ := h
    subst h1
    left
    exact ⟨rfl, rfl⟩
  next hEnd =>
    split at h
    · simp at h
    rename_i kb s₂ heq2
    split at h
    · simp at h
    rename_i key_buf s₃ heq3
    split at h
    · simp at h
    rename_i c s₄ h4 heq4
    simp only [Except.ok.injEq, Prod.mk.injEq] at h
    obtain ⟨h1, -⟩ := h
    subst h1
    right
    exact ⟨hEnd, c, rfl⟩

theorem tag_value_none_iff {s : ByteStream} {t : Tag} {s' : ByteStream}
    (h : Tag.parse s = .ok (t, s')) :
    (t.choice_value = none ↔ t.tag_type = TagType.End) := by
  obtain ⟨hlt, hS⟩ := tagParseS_of_parse_ok h
  rcases tagParseS_shape hS with ⟨h1, h2⟩ | ⟨h1, c, h2⟩ <;> simp [h1, h2]

/-! ## The claims -/

/-- C1: the Type-Code Decoder consumes exactly one byte; for each byte in
{0,1,3,4,5,8,9,10} it returns the matching variant (End, Byte, Int32, Int64,
Float32, String, List, Compound respectively) with the rest of the stream
untouched, and for every other byte value in [0,255] it fails with the
invalid-format error carrying the offending byte value. -/
theorem C1_type_code_decoder (b : Nat) (rest : ByteStream) (hb : b < 256) :
    TagType.parse (b :: rest) =
      if b = 0 then .ok (TagType.End, rest)
      else if b = 1 then .ok (TagType.Byte, rest)
      else if b = 3 then .ok (TagType.Int32, rest)
      else if b = 4 then .ok (TagType.Int64, rest)
      else if b = 5 then .ok (TagType.Float, rest)
      else if b = 8 then .ok (TagType.String, rest)
      else if b = 9 then .ok (TagType.List, rest)
      else if b = 10 then .ok (TagType.Compound, rest)
      else .error (.invalidTagType b) := by
  interval_cases b <;> simp [TagType.parse]

theorem C1_type_code_decoder_witness :
    TagType.parse [2, 7] = .error (.invalidTagType 2) ∧
    TagType.parse [10, 7] = .ok (TagType.Compound, [7]) := by
  constructor
  · have h := C1_type_code_decoder 2 [7] (by decide)
    simpa using h
  · have h := C1_type_code_decoder 10 [7] (by decide)
    simpa using h

/-- C2: once the 8-byte header is read, the Document Reader always returns a
`LevelData` (never an error): the top-level loop stops on a decode error and
keeps exactly the tags accumulated before it, stops on an `End` tag, and
otherwise appends the decoded tag and continues. -/
theorem C2_document_reader_lenient :
    (∀ s : ByteStream, 8 ≤ s.length →
      LevelData.from_bytes s =
        .ok ⟨toSigned 32 (leNat (s.take 4)), toSigned 32 (leNat ((s.drop 4).take 4)),
             parseTags (s.drop 8)⟩) ∧
    (∀ (u : ByteStream) (e : ParseErr), Tag.parse u = .error e → parseTags u = []) ∧
    (∀ (u : ByteStream) (t : Tag) (u' : ByteStream), Tag.parse u = .ok (t, u') →
      t.tag_type ≠ TagType.End → parseTags u = t :: parseTags u') ∧
    (∀ (u : ByteStream) (t : Tag) (u' : ByteStream), Tag.parse u = .ok (t, u') →
      t.tag_type = TagType.End → parseTags u = []) :=
  ⟨fun _ h => from_bytes_ok h, fun _ _ h => parseTags_error h,
   fun _ _ _ h hne => parseTags_cons h hne, fun _ _ _ h ht => parseTags_end h ht⟩

theorem C2_document_reader_lenient_witness :
    LevelData.from_bytes [1, 0, 0, 0, 5, 0, 0, 0, 1, 1, 0, 97, 5, 9] =
      .ok ⟨1, 5, [Tag.mk TagType.Byte "a" (some (Choice.byte 5))]⟩ := by
  have h1 := C2_document_reader_lenient.1 [1, 0, 0, 0, 5, 0, 0, 0, 1, 1, 0, 97, 5, 9]
    (by simp)
  have h2 := C2_document_reader_lenient.2.2.1 [1, 1, 0, 97, 5, 9]
    (Tag.mk TagType.Byte "a" (some (Choice.byte 5))) [9]
    (by simp [Tag.parse, tagParseS, choiceParseS, TagType.parse, readExact, leNat,
      utf8Lossy, utf8LossyChars])
    (by simp)
  have h3 := C2_document_reader_lenient.2.1 [9] ParseErr.eof
    (by simp [Tag.parse, tagParseS, TagType.parse, readExact])
  rw [h1]
  simp only [List.take, List.drop]
  rw [h2, h3]
  simp [toSigned, leNat]

/-- C3: decoding a Value with type `End` always fails with the invalid-format
error "Cannot parse value of End tag", for every possible stream content. -/
theorem C3_end_value_always_fails (s : ByteStream) :
    Choice.parse TagType.End s = .error .endValue := by
  simp [Choice.parse, choiceParseS]

/-- C4: a `Compound` value is decoded by repeatedly invoking the Tag Decoder
and consing each result until an `End` tag is produced; the `End` tag is
consumed but excluded from the sequence, so no `End` tag ever appears in a
decoded compound; a child decode error propagates immediately and no partial
compound is returned. -/
theorem C4_compound_decoding :
    (∀ s : ByteStream, Choice.parse TagType.Compound s =
        (compoundParse s).map (fun p => (Choice.vec p.1, p.2))) ∧
    (∀ (s : ByteStream) (e : ParseErr), Tag.parse s = .error e →
        compoundParse s = .error e) ∧
    (∀ (s : ByteStream) (t : Tag) (s' : ByteStream), Tag.parse s = .ok (t, s') →
        t.tag_type = TagType.End → compoundParse s = .ok ([], s')) ∧
    (∀ (s : ByteStream) (t : Tag) (s' : ByteStream), Tag.parse s = .ok (t, s') →
        t.tag_type ≠ TagType.End →
        compoundParse s = (compoundParse s').map (fun p => (t :: p.1, p.2))) ∧
    (∀ (s : ByteStream) (ts : List Tag) (s' : ByteStream),
        compoundParse s = .ok (ts, s') → ∀ t ∈ ts, t.tag_type ≠ TagType.End) :=
  ⟨Choice.parse_compound, fun _ _ h => compoundParse_err h,
   fun _ _ _ h ht => compoundParse_end h ht,
   fun _ _ _ h hne => compoundParse_cons h hne,
   fun _ _ _ h => compoundParse_no_end h⟩

theorem C4_compound_decoding_witness :
    Choice.parse TagType.Compound [0, 7] = .ok (.vec [], [7]) := by
  have h1 := C4_compound_decoding.1 [0, 7]
  have h3 := C4_compound_decoding.2.2.1 [0, 7] (Tag.mk TagType.End "" none) [7]
    (by simp [Tag.parse, tagParseS, TagType.parse]) (by simp)
  rw [h1, h3]
  simp [Except.map]

/-- C5: the Tag Decoder first decodes a type code; on `End` it returns the
keyless, valueless terminator tag without reading further bytes; on any other
type it reads a 2-byte little-endian key length, that many key bytes (lossily
UTF-8 decoded) and then a Value of that type, so a decoded Tag's value is
absent exactly when its type is `End`. -/
theorem C5_tag_decoder :
    (∀ s s₁ : ByteStream, TagType.parse s = .ok (TagType.End, s₁) →
        Tag.parse s = .ok (.mk TagType.End "" none, s₁)) ∧
    (∀ (s : ByteStream) (tt : TagType) (s₁ kb s₂ key_buf s₃ : ByteStream),
        TagType.parse s = .ok (tt, s₁) → tt ≠ TagType.End →
        readExact 2 s₁ = .ok (kb, s₂) → readExact (leNat kb) s₂ = .ok (key_buf, s₃) →
        Tag.parse s = (Choice.parse tt s₃).map
          (fun p => (Tag.mk tt (utf8Lossy key_buf) (some p.1), p.2))) ∧
    (∀ (s : ByteStream) (t : Tag) (s' : ByteStream), Tag.parse s = .ok (t, s') →
        (t.choice_value = none ↔ t.tag_type = TagType.End)) :=
  ⟨fun _ _ h => Tag.parse_end h,
   fun _ _ _ _ _ _ _ h1 hne h2 h3 => Tag.parse_nonEnd h1 hne h2 h3,
   fun _ _ _ h => tag_value_none_iff h⟩

theorem C5_tag_decoder_witness :
    Tag.parse [0, 9, 9] = .ok (.mk TagType.End "" none, [9, 9]) := by
  exact C5_tag_decoder.1 [0, 9, 9] [9, 9] (by simp [TagType.parse])

/-- C6: decoding a `String` value consumes a 2-byte little-endian length `N`,
then exactly `N` bytes, and text decoding never fails: for all byte contents
of sufficient length the decode succeeds with the lossy UTF-8 decoding of the
`N` bytes; malformed lead bytes (here the always-invalid range `F5..`) become
the replacement character U+FFFD. -/
theorem C6_string_decoding :
    (∀ (b0 b1 : Nat) (rest : ByteStream), b0 + 256 * b1 ≤ rest.length →
        Choice.parse TagType.String (b0 :: b1 :: rest) =
          .ok (.string (utf8Lossy (rest.take (b0 + 256 * b1))),
               rest.drop (b0 + 256 * b1))) ∧
    (∀ (b : Nat) (bs : List Nat), 0xF5 ≤ b →
        utf8LossyChars (b :: bs) = replacementChar :: utf8LossyChars bs) := by
  constructor
  · intro b0 b1 rest hlen
    have h1 : readLE 2 (b0 :: b1 :: rest) = .ok (b0 + 256 * b1, rest) := by
      unfold readLE readExact
      simp [leNat]
    have h2 : readExact (b0 + 256 * b1) rest =
        .ok (rest.take (b0 + 256 * b1), rest.drop (b0 + 256 * b1)) := by
      unfold readExact
      rw [if_pos hlen]
    exact Choice.parse_string_ok h1 h2
  · intro b bs hb
    rw [utf8LossyChars.eq_def]
    dsimp only
    rw [if_neg (by omega), if_neg (by omega), if_neg (by omega), if_neg (by omega),
      if_neg (by omega)]

theorem C6_string_decoding_witness :
    Choice.parse TagType.String [1, 0, 0xF5, 9] =
      .ok (.string (String.mk [replacementChar]), [9]) := by
  have h := C6_string_decoding.1 1 0 [0xF5, 9] (by simp)
  have hr := C6_string_decoding.2 0xF5 [] (by omega)
  simpa [utf8Lossy, hr, utf8LossyChars] using h

/-- C7: decoding a `List` value consumes one element type code via the
Type-Code Decoder, then a 4-byte little-endian count `n`, then exactly `n`
values of the element type decoded by the Value Decoder (list elements carry
no keys); a zero count yields the empty list. -/
theorem C7_list_decoding :
    (∀ (s : ByteStream) (et : TagType) (s₁ : ByteStream) (n : Nat) (s₂ : ByteStream),
        TagType.parse s = .ok (et, s₁) → readLE 4 s₁ = .ok (n, s₂) →
        Choice.parse TagType.List s =
          (listElems et n s₂).map (fun p => (Choice.list et p.1, p.2))) ∧
    (∀ (et : TagType) (s : ByteStream), listElems et 0 s = .ok ([], s)) ∧
    (∀ (et : TagType) (n : Nat) (s : ByteStream) (c : Choice) (s' : ByteStream),
        Choice.parse et s = .ok (c, s') →
        listElems et (n + 1) s = (listElems et n s').map (fun p => (c :: p.1, p.2))) :=
  ⟨fun _ _ _ _ _ h1 h2 => Choice.parse_list h1 h2, listElems_zero,
   fun _ _ _ _ _ h => listElems_succ_ok h⟩

theorem C7_list_decoding_witness :
    Choice.parse TagType.List [1, 0, 0, 0, 0, 7] = .ok (.list TagType.Byte [], [7]) := by
  have h1 := C7_list_decoding.1 [1, 0, 0, 0, 0, 7] TagType.Byte [0, 0, 0, 0, 7] 0 [7]
    (by simp [TagType.parse]) (by simp [readLE, readExact, leNat])
  have h2 := C7_list_decoding.2.1 TagType.Byte [7]
  rw [h1, h2]
  simp [Except.map]

/-- C8: decoding the top-level stream `01 01 00 61 05 00` yields exactly one
tag: a `Byte` tag with key "a" and value 5, the trailing `End` terminating the
loop. -/
theorem C8_scenario_byte_tag :
    parseTags [0x01, 0x01, 0x00, 0x61, 0x05, 0x00] =
      [Tag.mk TagType.Byte "a" (some (Choice.byte 5))] := by
  simp [parseTags, tagParseS, choiceParseS, TagType.parse, readExact, readLE, leNat,
    utf8Lossy, utf8LossyChars, Tag.tag_type]

/-- C9: list decoding is strict: an error decoding any of the `n` declared
elements (the first, or any later one) makes the whole list decode return that
error, and a successful list always has exactly the declared length, so no
shortened partial list is ever produced. -/
theorem C9_list_strictness :
    (∀ (et : TagType) (n : Nat) (s : ByteStream) (e : ParseErr),
        Choice.parse et s = .error e → listElems et (n + 1) s = .error e) ∧
    (∀ (et : TagType) (n : Nat) (s : ByteStream) (c : Choice) (s' : ByteStream)
        (e : ParseErr), Choice.parse et s = .ok (c, s') → listElems et n s' = .error e →
        listElems et (n + 1) s = .error e) ∧
    (∀ (et : TagType) (n : Nat) (s : ByteStream) (cs : List Choice) (s' : ByteStream),
        listElems et n s = .ok (cs, s') → cs.length = n) := by
  refine ⟨fun _ _ _ _ h => listElems_succ_err h, ?_, fun _ _ _ _ _ h => listElems_length h⟩
  intro et n s c s' e hok herr
  rw [listElems_succ_ok hok, herr]
  rfl

theorem C9_list_strictness_witness :
    listElems TagType.Byte 2 [7] = .error .eof := by
  have h1 := C9_list_strictness.1 TagType.Byte 0 ([] : ByteStream) ParseErr.eof
    (by simp [Choice.parse, choiceParseS, readExact])
  have h2 := C9_list_strictness.2.1 TagType.Byte 1 [7] (Choice.byte 7) [] ParseErr.eof
    (by simp [Choice.parse, choiceParseS, readExact, leNat]) h1
  exact h2

/-- C10: a declared length of zero is always satisfiable: for every stream
state (including the empty stream) a `String` value whose 2-byte length prefix
is zero decodes to the empty string consuming only the prefix, and a tag whose
2-byte key-length prefix is zero gets the empty key, the value decode starting
right after the prefix. -/
theorem C10_zero_length :
    (∀ rest : ByteStream, Choice.parse TagType.String (0 :: 0 :: rest) =
        .ok (.string "", rest)) ∧
    (∀ (s : ByteStream) (tt : TagType) (rest : ByteStream),
        TagType.parse s = .ok (tt, 0 :: 0 :: rest) → tt ≠ TagType.End →
        Tag.parse s = (Choice.parse tt rest).map
          (fun p => (Tag.mk tt "" (some p.1), p.2))) := by
  have h0 : utf8LossyChars [] = [] := by rw [utf8LossyChars.eq_def]
  have hempty : utf8Lossy [] = "" := by
    unfold utf8Lossy
    rw [h0]
  constructor
  · intro rest
    have h1 : readLE 2 (0 :: 0 :: rest) = .ok (0, rest) := by
      unfold readLE readExact
      simp [leNat]
    have h2 : readExact 0 rest = .ok ([], rest) := by
      unfold readExact
      simp
    have := Choice.parse_string_ok h1 h2
    rwa [hempty] at this
  · intro s tt rest h1 hne
    have h2 : readExact 2 (0 :: 0 :: rest) = .ok ([0, 0], rest) := by
      unfold readExact
      simp
    have h3 : readExact (leNat [0, 0]) rest = .ok ([], rest) := by
      unfold readExact
      simp [leNat]
    have := Tag.parse_nonEnd h1 hne h2 h3
    rwa [hempty] at this

theorem C10_zero_length_witness :
    Choice.parse TagType.String [0, 0] = .ok (.string "", []) ∧
    Tag.parse [1, 0, 0] = .error .eof := by
  constructor
  · exact C10_zero_length.1 []
  · have h := C10_zero_length.2 [1, 0, 0] TagType.Byte []
      (by simp [TagType.parse]) (by simp)
    rw [h]
    simp [Choice.parse, choiceParseS, readExact, Except.map]

end Nbt
